import Mathlib

/-!
Shallow embedding of the logic-gate network and the genetic algorithm of the
AI-core-algorithms repository (logic-gate GA notebook).  Randomness drawn from
the process-wide numpy source is modelled by explicit oracle arguments: every
call that draws a random value instead consumes a caller-supplied value, and
every call that numpy would abort with an exception is modelled as an Option
or Except failure.
-/

/-- Gate tag: the keys of the gate_functions dictionary, in insertion order
AND, OR, XOR, NOT. -/
inductive Op
  | AND
  | OR
  | XOR
  | NOT
  deriving DecidableEq

/-- AND gate of the source: bitwise conjunction of two ints. -/
def AND (a b : Nat) : Nat := a.land b

/-- OR gate of the source: bitwise disjunction. -/
def OR (a b : Nat) : Nat := a.lor b

/-- XOR gate of the source: bitwise exclusive or. -/
def XOR (a b : Nat) : Nat := a.xor b

/-- NOT gate of the source: the complement masked to one bit, which for a
nonnegative int a equals 1 - a % 2. -/
def NOT (a : Nat) : Nat := 1 - a % 2

/-- Arity of each operator per the specification: 1 for NOT, 2 for the binary
operators. -/
def Op.arity : Op → Nat
  | .NOT => 1
  | _ => 2

/-- LogicGateNeuron: an operator tag and the ordered list of input indices. -/
structure LogicGateNeuron where
  operator : Op
  inputs : List Nat
  deriving DecidableEq

/-- Failure conditions of LogicGateNeuron.compute: invalidArity models the
ValueError raised when a binary operator does not have exactly two stored
inputs; indexErr models an out-of-range list access (a python IndexError). -/
inductive ComputeErr
  | invalidArity
  | indexErr
  deriving DecidableEq

/-- LogicGateNeuron.compute: the source tests the NOT tag first and there reads
only inputs[0]; otherwise it requires exactly two stored indices and
dispatches the matching binary gate (the NOT arm of that inner dispatch is
unreachable because of the outer test). -/
def LogicGateNeuron.compute (n : LogicGateNeuron) (input_values : List Nat) :
    Except ComputeErr Nat :=
  if n.operator = Op.NOT then
    match n.inputs with
    | [] => .error .indexErr
    | i :: _ =>
      match input_values[i]? with
      | none => .error .indexErr
      | some a => .ok (NOT a)
  else
    match n.inputs with
    | [i, j] =>
      match input_values[i]?, input_values[j]? with
      | some a, some b =>
        .ok (match n.operator with
          | Op.AND => AND a b
          | Op.OR => OR a b
          | Op.XOR => XOR a b
          | Op.NOT => NOT a)
      | _, _ => .error .indexErr
    | _ => .error .invalidArity

/-- Models numpy choice without replacement from a pool: k successive draws,
each removing the chosen element from the pool; the oracle rand supplies every
draw, reduced modulo the current pool size.  Returns none when the pool holds
fewer than k elements, where numpy raises. -/
def sampleNoReplace : Nat → (Nat → Nat) → List Nat → Option (List Nat)
  | 0, _, _ => some []
  | k + 1, rand, pool =>
    if h : pool.length = 0 then none
    else
      have hi : rand 0 % pool.length < pool.length :=
        Nat.mod_lt _ (Nat.pos_of_ne_zero h)
      match sampleNoReplace k (fun j => rand (j + 1))
          (pool.eraseIdx (rand 0 % pool.length)) with
      | none => none
      | some rest => some (pool.get ⟨rand 0 % pool.length, hi⟩ :: rest)

/-- Uniform draw from the four gate keys, in dictionary insertion order. -/
def Op.fromChoice (c : Nat) : Op :=
  [Op.AND, Op.OR, Op.XOR, Op.NOT].getD (c % 4) Op.AND

/-- LogicGateNeuron.mutate: a single-input layer forces a NOT gate wired to
index 0; otherwise the operator is drawn from the four keys (oracle opChoice)
and 1 or 2 distinct indices are sampled without replacement from the input
range (oracle rand).  The previous state of the neuron is discarded. -/
def LogicGateNeuron.mutate (_n : LogicGateNeuron) (num_inputs : Nat)
    (opChoice : Nat) (rand : Nat → Nat) : Option LogicGateNeuron :=
  if num_inputs = 1 then some { operator := Op.NOT, inputs := [0] }
  else
    let op := Op.fromChoice opChoice
    let num_selected_inputs := if op = Op.NOT then 1 else 2
    (sampleNoReplace num_selected_inputs rand (List.range num_inputs)).map
      fun ins => { operator := op, inputs := ins }

/-- Option-valued map over a list that fails as soon as one element fails,
modelling a python loop that may raise. -/
def mapOpt {α β : Type} (f : α → Option β) : List α → Option (List β)
  | [] => some []
  | a :: as =>
    match f a, mapOpt f as with
    | some b, some bs => some (b :: bs)
    | _, _ => none

/-- LogicGateLayer: an ordered list of neurons. -/
structure LogicGateLayer where
  neurons : List LogicGateNeuron
  deriving DecidableEq

/-- LogicGateLayer constructor: each of the num_neurons neurons starts with the
default AND tag and two distinct indices sampled without replacement from the
input range, the per-neuron oracle rand j feeding the sampling.  Fails (numpy
raise) whenever a neuron is requested and num_inputs < 2. -/
def LogicGateLayer.init (num_neurons num_inputs : Nat) (rand : Nat → Nat → Nat) :
    Option LogicGateLayer :=
  (mapOpt (fun j =>
      (sampleNoReplace 2 (rand j) (List.range num_inputs)).map
        fun ins => LogicGateNeuron.mk Op.AND ins)
    (List.range num_neurons)).map LogicGateLayer.mk

/-- Helper of LogicGateLayer.mutate: mutate every neuron in order with the same
num_inputs, the j-th neuron consuming opChoice j and rand j. -/
def mutateNeuronList (num_inputs : Nat) (opChoice : Nat → Nat)
    (rand : Nat → Nat → Nat) : List LogicGateNeuron → Option (List LogicGateNeuron)
  | [] => some []
  | n :: ns =>
    match n.mutate num_inputs (opChoice 0) (rand 0),
        mutateNeuronList num_inputs (fun j => opChoice (j + 1))
          (fun j => rand (j + 1)) ns with
    | some m, some ms => some (m :: ms)
    | _, _ => none

/-- LogicGateLayer.mutate: delegate to every neuron with one shared
num_inputs. -/
def LogicGateLayer.mutate (l : LogicGateLayer) (num_inputs : Nat)
    (opChoice : Nat → Nat) (rand : Nat → Nat → Nat) : Option LogicGateLayer :=
  (mutateNeuronList num_inputs opChoice rand l.neurons).map LogicGateLayer.mk

/-- LogicGateNetwork: an ordered list of layers. -/
structure LogicGateNetwork where
  layers : List LogicGateLayer
  deriving DecidableEq

/-- Helper of the LogicGateNetwork constructor: build one layer per entry of
layer_sizes, each taking the previous entry (initially input_size) as its
input count; li indexes the per-layer random streams. -/
def initLayers (rand : Nat → Nat → Nat → Nat) :
    List Nat → Nat → Nat → Option (List LogicGateLayer)
  | [], _, _ => some []
  | size :: rest, current_input_size, li =>
    match LogicGateLayer.init size current_input_size (rand li),
        initLayers rand rest size (li + 1) with
    | some layer, some ls => some (layer :: ls)
    | _, _ => none

/-- LogicGateNetwork constructor. -/
def LogicGateNetwork.init (layer_sizes : List Nat) (input_size : Nat)
    (rand : Nat → Nat → Nat → Nat) : Option LogicGateNetwork :=
  (initLayers rand layer_sizes input_size 0).map LogicGateNetwork.mk

/-- One pass of the in-place loop of LogicGateNetwork.mutate: steps counts the
remaining iterations, i is the loop index and layers the current, already
partially mutated, layer list.  The input count for layer 0 is the length of
the input list of the first neuron of the current layer 0 (an IndexError,
hence none, when that layer is empty); for i > 0 it is the neuron count of the
current layer i - 1. -/
def mutateGo (randOp : Nat → Nat → Nat) (rand : Nat → Nat → Nat → Nat) :
    Nat → Nat → List LogicGateLayer → Option (List LogicGateLayer)
  | 0, _, layers => some layers
  | steps + 1, i, layers =>
    match (if i > 0 then some ((layers.getD (i - 1) ⟨[]⟩).neurons.length)
        else ((layers.getD 0 ⟨[]⟩).neurons.head?).map fun n0 => n0.inputs.length) with
    | none => none
    | some num_inputs =>
      match (layers.getD i ⟨[]⟩).mutate num_inputs (randOp i) (rand i) with
      | none => none
      | some newLayer => mutateGo randOp rand steps (i + 1) (layers.set i newLayer)

/-- LogicGateNetwork.mutate: mutate every layer in order, in place. -/
def LogicGateNetwork.mutate (net : LogicGateNetwork) (randOp : Nat → Nat → Nat)
    (rand : Nat → Nat → Nat → Nat) : Option LogicGateNetwork :=
  (mutateGo randOp rand net.layers.length 0 net.layers).map LogicGateNetwork.mk

/-- Modelled from the spec: the input count the mutate loop is said to derive
for layer i, read off the original network — for layer 0 the current length of
the first neuron's input list, for i > 0 the neuron count of layer i - 1. -/
def derivedNumInputs (net : LogicGateNetwork) (i : Nat) : Option Nat :=
  if i > 0 then some ((net.layers.getD (i - 1) ⟨[]⟩).neurons.length)
  else ((net.layers.getD 0 ⟨[]⟩).neurons.head?).map fun n0 => n0.inputs.length

/-- Modelled from the spec: the mutate loop with every per-layer input count
taken from the original network net0 via derivedNumInputs. -/
def mutateByCountsGo (net0 : LogicGateNetwork) (randOp : Nat → Nat → Nat)
    (rand : Nat → Nat → Nat → Nat) :
    Nat → Nat → List LogicGateLayer → Option (List LogicGateLayer)
  | 0, _, layers => some layers
  | steps + 1, i, layers =>
    match derivedNumInputs net0 i with
    | none => none
    | some num_inputs =>
      match (layers.getD i ⟨[]⟩).mutate num_inputs (randOp i) (rand i) with
      | none => none
      | some newLayer =>
        mutateByCountsGo net0 randOp rand steps (i + 1) (layers.set i newLayer)

/-- Modelled from the spec: network mutation where layer i is mutated with the
input count derivedNumInputs net i of the original network. -/
def mutateByCounts (net : LogicGateNetwork) (randOp : Nat → Nat → Nat)
    (rand : Nat → Nat → Nat → Nat) : Option LogicGateNetwork :=
  (mutateByCountsGo net randOp rand net.layers.length 0 net.layers).map
    LogicGateNetwork.mk

/-- Gene of one neuron: its operator together with its input indices. -/
abbrev Gene := Op × List Nat

/-- Structural fingerprint: per layer, per neuron, the gene. -/
abbrev NetStructure := List (List Gene)

/-- GeneticAlgorithm.net: the structural fingerprint of a network. -/
def netStructure (network : LogicGateNetwork) : NetStructure :=
  network.layers.map fun layer =>
    layer.neurons.map fun neuron => (neuron.operator, neuron.inputs)

/-- Shape of a network: the neuron count of every layer. -/
def netShape (net : LogicGateNetwork) : List Nat :=
  net.layers.map fun layer => layer.neurons.length

/-- GeneticAlgorithm state: the frozen target fingerprint, the configuration
and the current population.  The rates are rationals, matching the exact
comparison the source performs against a uniform draw. -/
structure GeneticAlgorithm where
  target_structure : NetStructure
  input_data : List (List Nat)
  input_size : Nat
  layer_sizes : List Nat
  population_size : Nat
  mutation_rate : ℚ
  crossover_rate : ℚ
  population : List LogicGateNetwork
  deriving DecidableEq

/-- GeneticAlgorithm constructor: snapshot the target structure and build
population_size fresh networks from the shared layer_sizes and input_size
(defaults of the source: population_size 50, mutation_rate 0.2,
crossover_rate 0.5). -/
def GeneticAlgorithm.init (target_network : LogicGateNetwork)
    (input_data : List (List Nat)) (input_size : Nat) (layer_sizes : List Nat)
    (population_size : Nat) (mutation_rate crossover_rate : ℚ)
    (rand : Nat → Nat → Nat → Nat → Nat) : Option GeneticAlgorithm :=
  (mapOpt (fun k => LogicGateNetwork.init layer_sizes input_size (rand k))
      (List.range population_size)).map
    fun population =>
      { target_structure := netStructure target_network
        input_data := input_data
        input_size := input_size
        layer_sizes := layer_sizes
        population_size := population_size
        mutation_rate := mutation_rate
        crossover_rate := crossover_rate
        population := population }

/-- Score of GeneticAlgorithm.fitness on two fingerprints: across zipped
layers and zipped neurons, count the positions whose operator and input list
both agree. -/
def fitnessScore (target_structure candidate : NetStructure) : Nat :=
  ((target_structure.zip candidate).map fun lp =>
    (lp.1.zip lp.2).countP fun gp =>
      decide (gp.1.1 = gp.2.1 ∧ gp.1.2 = gp.2.2)).sum

/-- GeneticAlgorithm.fitness of a candidate network. -/
def GeneticAlgorithm.fitness (ga : GeneticAlgorithm)
    (network : LogicGateNetwork) : Nat :=
  fitnessScore ga.target_structure (netStructure network)

/-- Convergence threshold of the GA loop: the sum of the per-layer lengths of
the target structure. -/
def maxFitness (target_structure : NetStructure) : Nat :=
  (target_structure.map List.length).sum

/-- Maximum of a list of naturals, modelling numpy max on a nonempty list. -/
def npMax (l : List Nat) : Nat := l.foldr Nat.max 0

/-- Half the smallest positive subnormal binary64 value, 2 to the -1075.
Under round-to-nearest-even, a nonnegative real at or below this threshold is
stored as exactly 0.0 (the tie at the threshold itself rounds to the even
candidate 0), and any value above it keeps a strictly positive sign. -/
noncomputable def flUnderflowThreshold : ℝ := 2 ^ (-1075 : ℤ)

/-- Models the binary64 storage of a nonnegative real computed by numpy:
values at or below half the smallest subnormal underflow to exactly 0; larger
values stay strictly positive, their magnitude idealized as the exact real
(rounding only perturbs the magnitude by a relative error and never the sign,
and the arguments 1 and exp 0 are stored exactly, so this sign-and-exactness
information is all the select claims consume). -/
noncomputable def flPos (x : ℝ) : ℝ :=
  if x ≤ flUnderflowThreshold then 0 else x

/-- Selection weights of GeneticAlgorithm.select: float64 np.exp of every
integer fitness shifted by the integer population maximum — an exponential of
a nonpositive integer, stored with underflow to exactly 0 modelled by
flPos. -/
noncomputable def GeneticAlgorithm.selectWeights (ga : GeneticAlgorithm) : List ℝ :=
  ga.population.map fun network =>
    flPos (Real.exp (((ga.fitness network : ℤ) -
      (npMax (ga.population.map ga.fitness) : ℤ) : ℤ) : ℝ))

/-- Selection probabilities of GeneticAlgorithm.select: each weight divided
by the weight sum, the float64 quotient again stored with underflow to
exactly 0 modelled by flPos. -/
noncomputable def GeneticAlgorithm.selectProbs (ga : GeneticAlgorithm) : List ℝ :=
  ga.selectWeights.map fun w => flPos (w / ga.selectWeights.sum)

/-- GeneticAlgorithm.select: numpy choice over the population with the softmax
probabilities selectProbs.  The drawn index is supplied by the oracle choice,
reduced modulo the population size; the oracle ranges over every index, a
superset of the support of the softmax draw.  On an empty population numpy
raises, hence none. -/
def GeneticAlgorithm.select (ga : GeneticAlgorithm) (choice : Nat) :
    Option LogicGateNetwork :=
  if h : ga.population.length = 0 then none
  else some (ga.population.get
    ⟨choice % ga.population.length, Nat.mod_lt _ (Nat.pos_of_ne_zero h)⟩)

/-- Helper of GeneticAlgorithm.crossover over one pair of neuron lists: at
each zipped position keep the first parent's neuron unless the drawn value
r j is below the crossover rate; positions of the first parent beyond the
second parent's length are kept unchanged. -/
def crossNeurons (crossover_rate : ℚ) (r : Nat → ℚ) :
    List LogicGateNeuron → List LogicGateNeuron → List LogicGateNeuron
  | [], _ => []
  | n1 :: t1, [] => n1 :: t1
  | n1 :: t1, n2 :: t2 =>
    (if r 0 < crossover_rate then n2 else n1) ::
      crossNeurons crossover_rate (fun j => r (j + 1)) t1 t2

/-- Helper of GeneticAlgorithm.crossover over the two layer lists. -/
def crossLayers (crossover_rate : ℚ) (r : Nat → Nat → ℚ) :
    List LogicGateLayer → List LogicGateLayer → List LogicGateLayer
  | [], _ => []
  | l1 :: t1, [] => l1 :: t1
  | l1 :: t1, l2 :: t2 =>
    LogicGateLayer.mk (crossNeurons crossover_rate (r 0) l1.neurons l2.neurons) ::
      crossLayers crossover_rate (fun i => r (i + 1)) t1 t2

/-- GeneticAlgorithm.crossover: start from a deep copy of parent1 and, for
every zipped (layer, neuron) position, independently replace the child's
neuron with a copy of parent2's when the drawn value r i j is below the
crossover rate. -/
def GeneticAlgorithm.crossover (ga : GeneticAlgorithm) (r : Nat → Nat → ℚ)
    (parent1 parent2 : LogicGateNetwork) : LogicGateNetwork :=
  LogicGateNetwork.mk
    (crossLayers ga.crossover_rate r parent1.layers parent2.layers)

/-- GeneticAlgorithm.mutate: with one draw coin per child compared against the
mutation rate, pick one random (layer, neuron) position (oracles li, ni,
reduced modulo the respective counts; numpy randint raises on an empty range,
hence none) and fully re-mutate that neuron, with num_inputs the neuron count
of the previous layer, or the configured input_size for layer 0. -/
def GeneticAlgorithm.mutate (ga : GeneticAlgorithm) (network : LogicGateNetwork)
    (coin : ℚ) (li ni opc : Nat) (rand : Nat → Nat) : Option LogicGateNetwork :=
  if coin < ga.mutation_rate then
    if _hL : network.layers.length = 0 then none
    else
      let layer_idx := li % network.layers.length
      let layer := network.layers.getD layer_idx ⟨[]⟩
      if _hN : layer.neurons.length = 0 then none
      else
        let neuron_idx := ni % layer.neurons.length
        let num_inputs := if layer_idx > 0 then
            (network.layers.getD (layer_idx - 1) ⟨[]⟩).neurons.length
          else ga.input_size
        match (layer.neurons.getD neuron_idx ⟨Op.AND, []⟩).mutate num_inputs opc rand with
        | none => none
        | some m => some ⟨network.layers.set layer_idx
            ⟨layer.neurons.set neuron_idx m⟩⟩
  else some network

/-- Random oracle consumed by one run of the GA loop; each field is indexed by
generation and child (and position where needed) and stands for one numpy
draw: the two selection draws, the per-position crossover draws, the mutation
coin, the mutated position, the operator draw and the index-sampling
stream. -/
structure Oracle where
  sel1 : Nat → Nat → Nat
  sel2 : Nat → Nat → Nat
  cross : Nat → Nat → Nat → Nat → ℚ
  mcoin : Nat → Nat → ℚ
  mlayer : Nat → Nat → Nat
  mneuron : Nat → Nat → Nat
  mop : Nat → Nat → Nat
  mrand : Nat → Nat → Nat → Nat

/-- One child of the generation loop: select two parents from the current
population, cross them over, then apply the mutation step. -/
def GeneticAlgorithm.buildChild (ga : GeneticAlgorithm) (o : Oracle)
    (g k : Nat) : Option LogicGateNetwork :=
  match ga.select (o.sel1 g k) with
  | none => none
  | some parent1 =>
    match ga.select (o.sel2 g k) with
    | none => none
    | some parent2 =>
      ga.mutate (ga.crossover (o.cross g k) parent1 parent2)
        (o.mcoin g k) (o.mlayer g k) (o.mneuron g k) (o.mop g k) (o.mrand g k)

/-- One full replacement population of the generation loop. -/
def GeneticAlgorithm.newPopulation (ga : GeneticAlgorithm) (o : Oracle)
    (g : Nat) : Option (List LogicGateNetwork) :=
  mapOpt (fun k => ga.buildChild o g k) (List.range ga.population_size)

/-- Python max with a key function: a left fold keeping the first maximal
element; none on the empty list, where python raises. -/
def bestBy (ga : GeneticAlgorithm) (pop : List LogicGateNetwork) :
    Option LogicGateNetwork :=
  pop.foldl (fun acc x =>
    match acc with
    | none => some x
    | some b => if ga.fitness x > ga.fitness b then some x else some b) none

/-- GeneticAlgorithm.GA: the generation loop.  The source loops without bound;
the fuel argument caps the number of iterations of this model, none meaning
that no convergence happened within fuel generations (or that an iteration
raised).  Each iteration replaces the whole population, takes the max-fitness
individual and returns it when its fitness reaches maxFitness. -/
def GeneticAlgorithm.GA (o : Oracle) :
    Nat → Nat → GeneticAlgorithm → Option LogicGateNetwork
  | 0, _, _ => none
  | fuel + 1, generation, ga =>
    match ga.newPopulation o generation with
    | none => none
    | some new_population =>
      match bestBy { ga with population := new_population } new_population with
      | none => none
      | some best_network =>
        if GeneticAlgorithm.fitness { ga with population := new_population }
            best_network = maxFitness ga.target_structure then
          some best_network
        else GeneticAlgorithm.GA o fuel (generation + 1)
          { ga with population := new_population }

/-- Modelled from the spec: the total neuron count of a network. -/
def totalNeuronCount (net : LogicGateNetwork) : Nat :=
  (net.layers.map fun layer => layer.neurons.length).sum

/-- Gene stored at position (i, j) of a network, none when out of range. -/
def geneAt (net : LogicGateNetwork) (i j : Nat) : Option Gene :=
  net.layers[i]?.bind fun layer =>
    layer.neurons[j]?.map fun n => (n.operator, n.inputs)

/-! Lemmas about the without-replacement sampler. -/

theorem sampleNoReplace_length {k : Nat} {rand : Nat → Nat} {pool l : List Nat}
    (h : sampleNoReplace k rand pool = some l) : l.length = k := by
  induction k generalizing rand pool l with
  | zero =>
    simp only [sampleNoReplace, Option.some.injEq] at h
    simp [← h]
  | succ k ih =>
    rw [sampleNoReplace] at h
    split at h
    · exact absurd h (by simp)
    · split at h
      · exact absurd h (by simp)
      · rename_i rest hrest
        have hl := Option.some.inj h
        rw [← hl]
        simp [ih hrest]

theorem sampleNoReplace_none_of_lt {k : Nat} {rand : Nat → Nat} {pool : List Nat}
    (h : pool.length < k) : sampleNoReplace k rand pool = none := by
  induction k generalizing rand pool with
  | zero => omega
  | succ k ih =>
    rw [sampleNoReplace]
    split
    · rfl
    · rename_i hne
      have hlt : (pool.eraseIdx (rand 0 % pool.length)).length < k := by
        have := List.length_eraseIdx_add_one
          (Nat.mod_lt (rand 0) (Nat.pos_of_ne_zero hne))
        omega
      rw [ih hlt]

theorem sampleNoReplace_some_of_le {k : Nat} {rand : Nat → Nat} {pool : List Nat}
    (h : k ≤ pool.length) : ∃ l, sampleNoReplace k rand pool = some l := by
  induction k generalizing rand pool with
  | zero => exact ⟨[], rfl⟩
  | succ k ih =>
    have hpos : pool.length ≠ 0 := by omega
    have hi : rand 0 % pool.length < pool.length :=
      Nat.mod_lt _ (Nat.pos_of_ne_zero hpos)
    have hlen : k ≤ (pool.eraseIdx (rand 0 % pool.length)).length := by
      have := List.length_eraseIdx_add_one hi
      omega
    obtain ⟨rest, hrest⟩ := @ih (fun j => rand (j + 1)) _ hlen
    refine ⟨pool.get ⟨rand 0 % pool.length, hi⟩ :: rest, ?_⟩
    rw [sampleNoReplace, dif_neg hpos, hrest]

theorem sampleNoReplace_mem {k : Nat} {rand : Nat → Nat} {pool l : List Nat}
    (h : sampleNoReplace k rand pool = some l) : ∀ x ∈ l, x ∈ pool := by
  induction k generalizing rand pool l with
  | zero =>
    simp only [sampleNoReplace, Option.some.injEq] at h
    intro x hx
    rw [← h] at hx
    simp at hx
  | succ k ih =>
    rw [sampleNoReplace] at h
    split at h
    · exact absurd h (by simp)
    · rename_i hne
      split at h
      · exact absurd h (by simp)
      · rename_i rest hrest
        have hl := Option.some.inj h
        intro x hx
        rw [← hl] at hx
        rcases List.mem_cons.mp hx with hx | hx
        · rw [hx]
          exact List.get_mem _ _ _
        · exact (List.eraseIdx_sublist pool _).subset (ih hrest x hx)

theorem sampleNoReplace_nodup {k : Nat} {rand : Nat → Nat} {pool l : List Nat}
    (hnd : pool.Nodup) (h : sampleNoReplace k rand pool = some l) : l.Nodup := by
  induction k generalizing rand pool l with
  | zero =>
    simp only [sampleNoReplace, Option.some.injEq] at h
    rw [← h]
    exact List.nodup_nil
  | succ k ih =>
    rw [sampleNoReplace] at h
    split at h
    · exact absurd h (by simp)
    · rename_i hne
      split at h
      · exact absurd h (by simp)
      · rename_i rest hrest
        have hl := Option.some.inj h
        rw [← hl]
        have hi : rand 0 % pool.length < pool.length :=
          Nat.mod_lt _ (Nat.pos_of_ne_zero hne)
        have hndE : (pool.eraseIdx (rand 0 % pool.length)).Nodup :=
          (List.eraseIdx_sublist pool _).nodup hnd
        refine List.nodup_cons.mpr ⟨?_, ih hndE hrest⟩
        intro hmem
        have hmem' := sampleNoReplace_mem hrest _ hmem
        rw [List.mem_eraseIdx_iff_getElem?] at hmem'
        obtain ⟨j, hji, hj⟩ := hmem'
        have hjlt : j < pool.length := by
          by_contra hge
          rw [List.getElem?_eq_none (by omega)] at hj
          exact Option.noConfusion hj
        have hget : pool.get ⟨j, hjlt⟩ = pool.get ⟨rand 0 % pool.length, hi⟩ := by
          have hj' := List.getElem?_eq_getElem hjlt
          rw [hj'] at hj
          exact Option.some.inj hj
        have := hnd.get_inj_iff.mp hget
        exact hji (by simpa using congrArg Fin.val this)

/-- C6: for every num_inputs of at least 1, Neuron.mutate succeeds and the
resulting neuron satisfies the invariant: a single-input layer forces NOT with
inputs [0]; otherwise the input list length matches the drawn operator's
arity and its entries are pairwise distinct and in range. -/
theorem neuron_mutate_invariant (n : LogicGateNeuron) (num_inputs : Nat)
    (opChoice : Nat) (rand : Nat → Nat) (h1 : 1 ≤ num_inputs) :
    ∃ m, n.mutate num_inputs opChoice rand = some m ∧
      (num_inputs = 1 → m.operator = Op.NOT ∧ m.inputs = [0]) ∧
      m.inputs.length = m.operator.arity ∧
      m.inputs.Nodup ∧
      (∀ x ∈ m.inputs, x < num_inputs) := by
  by_cases hone : num_inputs = 1
  · refine ⟨⟨Op.NOT, [0]⟩, ?_, ?_, ?_, ?_, ?_⟩
    · simp [LogicGateNeuron.mutate, hone]
    · intro _
      exact ⟨rfl, rfl⟩
    · rfl
    · simp
    · intro x hx
      simp at hx
      omega
  · have hkle : (if Op.fromChoice opChoice = Op.NOT then 1 else 2) ≤
        (List.range num_inputs).length := by
      rw [List.length_range]
      split <;> omega
    obtain ⟨ins, hins⟩ := @sampleNoReplace_some_of_le _ rand _ hkle
    have harity : (if Op.fromChoice opChoice = Op.NOT then 1 else 2) =
        (Op.fromChoice opChoice).arity := by
      cases hc : Op.fromChoice opChoice <;> simp [Op.arity]
    refine ⟨⟨Op.fromChoice opChoice, ins⟩, ?_, fun h => absurd h hone, ?_,
      sampleNoReplace_nodup (List.nodup_range _) hins,
      fun x hx => List.mem_range.mp (sampleNoReplace_mem hins x hx)⟩
    · simp only [LogicGateNeuron.mutate, if_neg hone, hins, Option.map_some']
    · rw [sampleNoReplace_length hins]
      exact harity

/-- Witness for neuron_mutate_invariant at num_inputs 2 with an all-zero
random stream. -/
theorem neuron_mutate_invariant_witness :
    1 ≤ 2 ∧
    ∃ m, (LogicGateNeuron.mk Op.AND []).mutate 2 0 (fun _ => 0) = some m ∧
      (2 = 1 → m.operator = Op.NOT ∧ m.inputs = [0]) ∧
      m.inputs.length = m.operator.arity ∧
      m.inputs.Nodup ∧
      (∀ x ∈ m.inputs, x < 2) :=
  ⟨by decide, neuron_mutate_invariant ⟨Op.AND, []⟩ 2 0 (fun _ => 0) (by decide)⟩

/-- C5: neuron evaluation matches the standard truth tables on 0/1 operands
read from the input vector at the stored indices, and the three binary gates
are symmetric in their operands. -/
theorem compute_truth_tables (v : List Nat) (i j a b : Nat)
    (hvi : v[i]? = some a) (hvj : v[j]? = some b) (ha : a < 2) (hb : b < 2) :
    (LogicGateNeuron.mk Op.AND [i, j]).compute v =
      .ok (if a = 1 ∧ b = 1 then 1 else 0) ∧
    (LogicGateNeuron.mk Op.OR [i, j]).compute v =
      .ok (if a = 1 ∨ b = 1 then 1 else 0) ∧
    (LogicGateNeuron.mk Op.XOR [i, j]).compute v =
      .ok (if a = b then 0 else 1) ∧
    (LogicGateNeuron.mk Op.NOT [i]).compute v = .ok (1 - a) ∧
    AND a b = AND b a ∧ OR a b = OR b a ∧ XOR a b = XOR b a := by
  refine ⟨?_, ?_, ?_, ?_, ?_, ?_, ?_⟩
  · simp [LogicGateNeuron.compute, hvi, hvj, AND, OR, XOR, NOT]
    all_goals interval_cases a <;> interval_cases b <;> decide
  · simp [LogicGateNeuron.compute, hvi, hvj, AND, OR, XOR, NOT]
    all_goals interval_cases a <;> interval_cases b <;> decide
  · simp [LogicGateNeuron.compute, hvi, hvj, AND, OR, XOR, NOT]
    all_goals interval_cases a <;> interval_cases b <;> decide
  · simp [LogicGateNeuron.compute, hvi, NOT]
    all_goals interval_cases a <;> decide
  · interval_cases a <;> interval_cases b <;> decide
  · interval_cases a <;> interval_cases b <;> decide
  · interval_cases a <;> interval_cases b <;> decide

/-- Witness for compute_truth_tables on the vector [0, 1] at indices 0, 1. -/
theorem compute_truth_tables_witness :
    ([0, 1] : List Nat)[0]? = some 0 ∧ ([0, 1] : List Nat)[1]? = some 1 ∧
    (0 : Nat) < 2 ∧ (1 : Nat) < 2 ∧
    ((LogicGateNeuron.mk Op.AND [0, 1]).compute [0, 1] =
      .ok (if (0 : Nat) = 1 ∧ (1 : Nat) = 1 then 1 else 0) ∧
    (LogicGateNeuron.mk Op.OR [0, 1]).compute [0, 1] =
      .ok (if (0 : Nat) = 1 ∨ (1 : Nat) = 1 then 1 else 0) ∧
    (LogicGateNeuron.mk Op.XOR [0, 1]).compute [0, 1] =
      .ok (if (0 : Nat) = 1 then 0 else 1) ∧
    (LogicGateNeuron.mk Op.NOT [0]).compute [0, 1] = .ok (1 - 0) ∧
    AND 0 1 = AND 1 0 ∧ OR 0 1 = OR 1 0 ∧ XOR 0 1 = XOR 1 0) :=
  ⟨rfl, rfl, by decide, by decide,
    compute_truth_tables [0, 1] 0 1 0 1 rfl rfl (by decide) (by decide)⟩

/-- C3 counterexample: a NOT neuron whose stored input list has length 2,
mismatching the NOT arity of 1, nevertheless evaluates without any failure,
silently using only its first stored index: the claimed InvalidArity failure
does not occur on an arity mismatch of a NOT neuron. -/
theorem not_neuron_arity_mismatch_no_failure :
    (LogicGateNeuron.mk Op.NOT [0, 1]).compute [0, 1] = .ok 1 ∧
    (LogicGateNeuron.mk Op.NOT [0, 1]).inputs.length ≠ Op.NOT.arity :=
  ⟨rfl, by decide⟩

/-- C3 amended: a binary-operator neuron fails with InvalidArity exactly when
its stored input list does not have length 2; a NOT neuron never fails with
InvalidArity — with a nonempty input list it evaluates via its first index
only, and with an empty input list it fails with an index error instead. -/
theorem invalidArity_characterization (n : LogicGateNeuron) (v : List Nat) :
    (n.operator ≠ Op.NOT →
      (n.compute v = .error .invalidArity ↔ n.inputs.length ≠ 2)) ∧
    (n.operator = Op.NOT → n.compute v ≠ .error .invalidArity ∧
      (n.inputs = [] → n.compute v = .error .indexErr)) := by
  obtain ⟨op, ins⟩ := n
  constructor
  · intro hne
    simp only at hne
    rcases ins with _ | ⟨i, _ | ⟨j, _ | ⟨k, t⟩⟩⟩
    · simp [LogicGateNeuron.compute, hne]
    · simp [LogicGateNeuron.compute, hne]
    · rcases hv1 : v[i]? with _ | a <;> rcases hv2 : v[j]? with _ | b <;>
        simp [LogicGateNeuron.compute, hne, hv1, hv2]
    · simp [LogicGateNeuron.compute, hne]
  · intro hop
    simp only at hop
    subst hop
    refine ⟨?_, ?_⟩
    · rcases ins with _ | ⟨i, t⟩
      · simp [LogicGateNeuron.compute]
      · rcases hv : v[i]? with _ | a <;> simp [LogicGateNeuron.compute, hv]
    · intro h
      simp only at h
      subst h
      simp [LogicGateNeuron.compute]

/-- Witness for invalidArity_characterization: an AND neuron with a single
stored input fails with InvalidArity. -/
theorem invalidArity_characterization_witness :
    (LogicGateNeuron.mk Op.AND [0]).operator ≠ Op.NOT ∧
    ((LogicGateNeuron.mk Op.AND [0]).compute [1, 1] = .error .invalidArity ↔
      (LogicGateNeuron.mk Op.AND [0]).inputs.length ≠ 2) :=
  ⟨by decide, (invalidArity_characterization ⟨Op.AND, [0]⟩ [1, 1]).1 (by decide)⟩

/-! Lemmas about the fitness score. -/

theorem countP_gene_le (t c : List Gene) :
    ((t.zip c).countP fun gp => decide (gp.1.1 = gp.2.1 ∧ gp.1.2 = gp.2.2)) ≤
      t.length :=
  le_trans (List.countP_le_length _)
    (by rw [List.length_zip]; exact Nat.min_le_left _ _)

theorem zip_eq_of_forall {t c : List Gene} (h : t.length = c.length)
    (hall : ∀ gp ∈ t.zip c, gp.1 = gp.2) : t = c := by
  induction t generalizing c with
  | nil =>
    cases c with
    | nil => rfl
    | cons b cs => simp at h
  | cons a t ih =>
    cases c with
    | nil => simp at h
    | cons b cs =>
      simp only [List.length_cons] at h
      have hab : a = b := hall (a, b) (by simp [List.zip_cons_cons])
      rw [hab, @ih cs (by omega)
        (fun gp hgp => hall gp (by simp [List.zip_cons_cons, hgp]))]

theorem mem_zip_same {α : Type} {c : List α} {gp : α × α}
    (h : gp ∈ c.zip c) : gp.1 = gp.2 := by
  induction c with
  | nil => simp at h
  | cons a t ih =>
    rw [List.zip_cons_cons] at h
    rcases List.mem_cons.mp h with h | h
    · rw [h]
    · exact ih h

theorem countP_gene_eq_iff (t c : List Gene) (h : t.length = c.length) :
    (((t.zip c).countP fun gp => decide (gp.1.1 = gp.2.1 ∧ gp.1.2 = gp.2.2)) =
      t.length) ↔ t = c := by
  have hzlen : (t.zip c).length = t.length := by
    rw [List.length_zip, h, Nat.min_self]
  rw [← hzlen, List.countP_eq_length]
  constructor
  · intro hall
    refine zip_eq_of_forall h fun gp hgp => ?_
    have := of_decide_eq_true (hall gp hgp)
    exact Prod.ext this.1 this.2
  · intro heq
    subst heq
    intro gp hgp
    have := mem_zip_same hgp
    simp [this]

theorem fitnessScore_le (ts cs : NetStructure) :
    fitnessScore ts cs ≤ maxFitness ts := by
  induction ts generalizing cs with
  | nil => simp [fitnessScore, maxFitness]
  | cons t ts ih =>
    cases cs with
    | nil => simp [fitnessScore, maxFitness]
    | cons c cs' =>
      have h2 := @ih cs'
      simp only [fitnessScore, maxFitness] at h2 ⊢
      simp only [List.zip_cons_cons, List.map_cons, List.sum_cons]
      exact Nat.add_le_add (countP_gene_le t c) h2

theorem fitnessScore_eq_max_iff (ts cs : NetStructure)
    (h : ts.map List.length = cs.map List.length) :
    fitnessScore ts cs = maxFitness ts ↔ ts = cs := by
  induction ts generalizing cs with
  | nil =>
    have hcs : cs = [] := by
      cases cs
      · rfl
      · simp at h
    subst hcs
    simp [fitnessScore, maxFitness]
  | cons t ts ih =>
    cases cs with
    | nil => simp at h
    | cons c cs' =>
      simp only [List.map_cons, List.cons.injEq] at h
      obtain ⟨hlen, hmap⟩ := h
      have hcle := countP_gene_le t c
      have hsle := fitnessScore_le ts cs'
      have hiff1 := countP_gene_eq_iff t c hlen
      have hiff2 := ih cs' hmap
      simp only [fitnessScore, maxFitness] at hsle hiff2 ⊢
      simp only [List.zip_cons_cons, List.map_cons, List.sum_cons]
      constructor
      · intro heq
        have hsplit : (((t.zip c).countP fun gp =>
            decide (gp.1.1 = gp.2.1 ∧ gp.1.2 = gp.2.2)) = t.length) ∧
            ((ts.zip cs').map fun lp => (lp.1.zip lp.2).countP fun gp =>
              decide (gp.1.1 = gp.2.1 ∧ gp.1.2 = gp.2.2)).sum =
              (ts.map List.length).sum := by omega
        rw [List.cons_eq_cons]
        exact ⟨hiff1.mp hsplit.1, hiff2.mp hsplit.2⟩
      · intro heq
        rw [List.cons_eq_cons] at heq
        have e1 := hiff1.mpr heq.1
        have e2 := hiff2.mpr heq.2
        omega

/-- Example target network used by concrete witnesses: two layers of
respectively two and one neurons. -/
def exTarget : LogicGateNetwork :=
  ⟨[⟨[⟨Op.AND, [0, 1]⟩, ⟨Op.OR, [0, 1]⟩]⟩, ⟨[⟨Op.XOR, [0, 1]⟩]⟩]⟩

/-- Example GeneticAlgorithm state used by concrete witnesses, frozen on
exTarget. -/
def exGA : GeneticAlgorithm :=
  { target_structure := netStructure exTarget
    input_data := []
    input_size := 2
    layer_sizes := [2, 1]
    population_size := 1
    mutation_rate := 1 / 5
    crossover_rate := 1 / 2
    population := [exTarget] }

/-- C2: the convergence threshold computed by the GA loop from the stored
target structure equals the total neuron count of the target network, and the
fitness of any network with an identical fingerprint — the target itself
included — is exactly that total neuron count. -/
theorem max_fitness_total_neurons (ga : GeneticAlgorithm)
    (target_network : LogicGateNetwork)
    (h : ga.target_structure = netStructure target_network) :
    maxFitness ga.target_structure = totalNeuronCount target_network ∧
    ∀ network : LogicGateNetwork,
      netStructure network = netStructure target_network →
      ga.fitness network = totalNeuronCount target_network := by
  have hmax : maxFitness (netStructure target_network) =
      totalNeuronCount target_network := by
    simp [maxFitness, netStructure, totalNeuronCount, List.map_map,
      Function.comp_def]
  constructor
  · rw [h]
    exact hmax
  · intro network hnet
    have hself : fitnessScore (netStructure target_network)
        (netStructure target_network) = maxFitness (netStructure target_network) :=
      (fitnessScore_eq_max_iff _ _ rfl).mpr rfl
    rw [GeneticAlgorithm.fitness, h, hnet, hself, hmax]

/-- Witness for max_fitness_total_neurons on exGA and exTarget. -/
theorem max_fitness_total_neurons_witness :
    exGA.target_structure = netStructure exTarget ∧
    maxFitness exGA.target_structure = totalNeuronCount exTarget ∧
    (netStructure exTarget = netStructure exTarget →
      exGA.fitness exTarget = totalNeuronCount exTarget) :=
  ⟨rfl, (max_fitness_total_neurons exGA exTarget rfl).1,
    fun _ => (max_fitness_total_neurons exGA exTarget rfl).2 exTarget rfl⟩

/-! Construction failures on too-small input ranges. -/

theorem layer_init_none (num_neurons num_inputs : Nat) (rand : Nat → Nat → Nat)
    (hni : num_inputs < 2) (hnn : 0 < num_neurons) :
    LogicGateLayer.init num_neurons num_inputs rand = none := by
  have hs : sampleNoReplace 2 (rand 0) (List.range num_inputs) = none :=
    sampleNoReplace_none_of_lt (by rw [List.length_range]; omega)
  rw [LogicGateLayer.init]
  obtain ⟨m, rfl⟩ : ∃ m, num_neurons = m + 1 := ⟨num_neurons - 1, by omega⟩
  rw [List.range_succ_eq_map]
  simp only [mapOpt, hs, Option.map_none']

theorem initLayers_append_one (rand : Nat → Nat → Nat → Nat)
    (pre post : List Nat) (m : Nat) (hm : 0 < m) :
    ∀ cur li, initLayers rand (pre ++ 1 :: m :: post) cur li = none := by
  induction pre with
  | nil =>
    intro cur li
    rw [List.nil_append, initLayers]
    have h2 : initLayers rand (m :: post) 1 (li + 1) = none := by
      rw [initLayers, layer_init_none m 1 (rand (li + 1)) (by omega) hm]
    rw [h2]
    cases LogicGateLayer.init 1 cur (rand li) <;> rfl
  | cons s pre ih =>
    intro cur li
    rw [List.cons_append, initLayers, ih s (li + 1)]
    cases LogicGateLayer.init s cur (rand li) <;> rfl

/-- C10: constructing a layer with an input range smaller than 2 fails for any
positive neuron count, because each fresh neuron samples two distinct indices
without replacement; hence the boundary network with layer_sizes [1] and
input_size 1 cannot be constructed, nor can any network whose layer_sizes put
a positive-width layer right after a width-1 layer. -/
theorem layer_small_input_init_fails :
    (∀ num_neurons num_inputs rand, num_inputs < 2 → 0 < num_neurons →
      LogicGateLayer.init num_neurons num_inputs rand = none) ∧
    (∀ rand, LogicGateNetwork.init [1] 1 rand = none) ∧
    (∀ pre post m input_size rand, 0 < m →
      LogicGateNetwork.init (pre ++ 1 :: m :: post) input_size rand = none) := by
  refine ⟨fun nn ni rand h1 h2 => layer_init_none nn ni rand h1 h2, ?_, ?_⟩
  · intro rand
    rw [LogicGateNetwork.init]
    have h1 : initLayers rand [1] 1 0 = none := by
      rw [initLayers, layer_init_none 1 1 (rand 0) (by omega) (by omega)]
    rw [h1, Option.map_none']
  · intro pre post m input_size rand hm
    rw [LogicGateNetwork.init,
      initLayers_append_one rand pre post m hm input_size 0, Option.map_none']

/-- Witness for layer_small_input_init_fails at concrete sizes. -/
theorem layer_small_input_init_fails_witness :
    1 < 2 ∧ 0 < 1 ∧
    LogicGateLayer.init 1 1 (fun _ _ => 0) = none ∧
    LogicGateNetwork.init [1] 1 (fun _ _ _ => 0) = none ∧
    LogicGateNetwork.init ([2] ++ 1 :: 3 :: []) 5 (fun _ _ _ => 0) = none :=
  ⟨by decide, by decide,
    layer_small_input_init_fails.1 1 1 _ (by decide) (by decide),
    layer_small_input_init_fails.2.1 _,
    layer_small_input_init_fails.2.2 [2] [] 3 5 _ (by decide)⟩

/-! Crossover at the boundary rates. -/

theorem crossNeurons_zero (r : Nat → ℚ) (hr : ∀ j, 0 ≤ r j) :
    ∀ t1 t2, crossNeurons 0 r t1 t2 = t1 := by
  intro t1
  induction t1 generalizing r with
  | nil => intro t2; cases t2 <;> rfl
  | cons n1 t1 ih =>
    intro t2
    cases t2 with
    | nil => rfl
    | cons n2 t2 =>
      rw [crossNeurons, if_neg (not_lt.mpr (hr 0)),
        ih (fun j => r (j + 1)) (fun j => hr (j + 1)) t2]

theorem crossNeurons_one (r : Nat → ℚ) (hr : ∀ j, r j < 1) :
    ∀ t1 t2, t1.length = t2.length → crossNeurons 1 r t1 t2 = t2 := by
  intro t1
  induction t1 generalizing r with
  | nil =>
    intro t2 h
    cases t2 with
    | nil => rfl
    | cons n2 t2 => simp at h
  | cons n1 t1 ih =>
    intro t2 h
    cases t2 with
    | nil => simp at h
    | cons n2 t2 =>
      simp only [List.length_cons] at h
      rw [crossNeurons, if_pos (hr 0),
        ih (fun j => r (j + 1)) (fun j => hr (j + 1)) t2 (by omega)]

theorem crossLayers_zero (r : Nat → Nat → ℚ) (hr : ∀ i j, 0 ≤ r i j) :
    ∀ l1 l2, crossLayers 0 r l1 l2 = l1 := by
  intro l1
  induction l1 generalizing r with
  | nil => intro l2; cases l2 <;> rfl
  | cons h1 t1 ih =>
    intro l2
    cases l2 with
    | nil => rfl
    | cons h2 t2 =>
      rw [crossLayers, crossNeurons_zero (r 0) (hr 0),
        ih (fun i => r (i + 1)) (fun i => hr (i + 1)) t2]

theorem crossLayers_one (r : Nat → Nat → ℚ) (hr : ∀ i j, r i j < 1) :
    ∀ l1 l2, (l1.map fun l => l.neurons.length) =
      (l2.map fun l => l.neurons.length) → crossLayers 1 r l1 l2 = l2 := by
  intro l1
  induction l1 generalizing r with
  | nil =>
    intro l2 h
    cases l2 with
    | nil => rfl
    | cons h2 t2 => simp at h
  | cons h1 t1 ih =>
    intro l2 h
    cases l2 with
    | nil => simp at h
    | cons h2 t2 =>
      simp only [List.map_cons, List.cons.injEq] at h
      rw [crossLayers, crossNeurons_one (r 0) (hr 0) _ _ h.1,
        ih (fun i => r (i + 1)) (fun i => hr (i + 1)) t2 h.2]

/-- C7: on parents of equal topology, crossover at rate 0 returns a child with
exactly the first parent's fingerprint and crossover at rate 1 returns a child
with exactly the second parent's fingerprint, for every admissible sequence of
uniform draws (all in the interval from 0 inclusive to 1 exclusive).  The
child is a fresh value, so in this pure model the parents are unchanged by
construction. -/
theorem crossover_rate_boundaries (ga : GeneticAlgorithm)
    (parent1 parent2 : LogicGateNetwork) (r : Nat → Nat → ℚ)
    (hr : ∀ i j, 0 ≤ r i j ∧ r i j < 1)
    (hshape : netShape parent1 = netShape parent2) :
    (ga.crossover_rate = 0 →
      netStructure (ga.crossover r parent1 parent2) = netStructure parent1) ∧
    (ga.crossover_rate = 1 →
      netStructure (ga.crossover r parent1 parent2) = netStructure parent2) := by
  constructor
  · intro h0
    rw [GeneticAlgorithm.crossover, h0,
      crossLayers_zero r (fun i j => (hr i j).1)]
  · intro h1
    simp only [netShape] at hshape
    rw [GeneticAlgorithm.crossover, h1,
      crossLayers_one r (fun i j => (hr i j).2) _ _ hshape]

/-- Second example network, same topology as exTarget but different genes. -/
def exOther : LogicGateNetwork :=
  ⟨[⟨[⟨Op.NOT, [1]⟩, ⟨Op.XOR, [1, 0]⟩]⟩, ⟨[⟨Op.AND, [1, 0]⟩]⟩]⟩

/-- Witness for crossover_rate_boundaries: rate 0 on exGA0 returns the first
parent's fingerprint. -/
theorem crossover_rate_boundaries_witness :
    (∀ i j : Nat, 0 ≤ (fun _ _ => (1 : ℚ) / 2) i j ∧
      (fun _ _ => (1 : ℚ) / 2) i j < 1) ∧
    netShape exTarget = netShape exOther ∧
    ({ exGA with crossover_rate := 0 }.crossover_rate = 0 →
      netStructure ({ exGA with crossover_rate := 0 }.crossover
        (fun _ _ => (1 : ℚ) / 2) exTarget exOther) = netStructure exTarget) :=
  ⟨fun _ _ => by norm_num, by decide,
    (crossover_rate_boundaries { exGA with crossover_rate := 0 } exTarget
      exOther (fun _ _ => (1 : ℚ) / 2) (fun _ _ => by norm_num) (by decide)).1⟩

/-! Selection weights and probabilities. -/

theorem npMax_all_eq {l : List Nat} {c : Nat} (hne : l ≠ [])
    (hall : ∀ x ∈ l, x = c) : npMax l = c := by
  induction l with
  | nil => exact absurd rfl hne
  | cons a t ih =>
    have ha : a = c := hall a (by simp)
    cases t with
    | nil => simp [npMax, ha]
    | cons b t' =>
      have ht := ih (by simp) (fun x hx => hall x (List.mem_cons_of_mem _ hx))
      show Nat.max a (npMax (b :: t')) = c
      rw [ha, ht]
      exact Nat.max_self c

theorem map_const_replicate {α : Type} (l : List α) (b : ℝ) :
    l.map (fun _ => b) = List.replicate l.length b := by
  induction l with
  | nil => rfl
  | cons a t ih => simp [List.replicate_succ, ih]

theorem flUnderflowThreshold_pos : 0 < flUnderflowThreshold := by
  rw [flUnderflowThreshold]
  exact zpow_pos (by norm_num) _

theorem threshold_lt_one : flUnderflowThreshold < 1 := by
  rw [flUnderflowThreshold]
  calc (2:ℝ) ^ (-1075 : ℤ) < (2:ℝ) ^ (0 : ℤ) :=
      zpow_lt_zpow_right₀ (by norm_num) (by norm_num)
    _ = 1 := by norm_num

theorem flPos_eq_zero {x : ℝ} (hx : x ≤ flUnderflowThreshold) : flPos x = 0 := by
  rw [flPos, if_pos hx]

theorem flPos_eq_self {x : ℝ} (hx : flUnderflowThreshold < x) : flPos x = x := by
  rw [flPos, if_neg (not_le.mpr hx)]

theorem flPos_pos {x : ℝ} (hx : flUnderflowThreshold < x) : 0 < flPos x := by
  rw [flPos_eq_self hx]
  exact lt_trans flUnderflowThreshold_pos hx

theorem flPos_le {x : ℝ} (hx : 0 ≤ x) : flPos x ≤ x := by
  rw [flPos]
  split
  · exact hx
  · exact le_refl x

theorem exp_le_threshold {x : ℝ} (hx : x ≤ -746) :
    Real.exp x ≤ flUnderflowThreshold := by
  have h1 : Real.exp (-746 : ℝ) < flUnderflowThreshold := by
    rw [flUnderflowThreshold, ← Real.exp_log (zpow_pos (by norm_num) _),
      Real.exp_lt_exp, Real.log_zpow]
    have := Real.log_two_lt_d9
    push_cast
    nlinarith
  exact le_of_lt (lt_of_le_of_lt (Real.exp_le_exp.mpr hx) h1)

theorem threshold_lt_exp {x : ℝ} (hx : (-700 : ℝ) ≤ x) :
    flUnderflowThreshold < Real.exp x := by
  have h1 : flUnderflowThreshold < Real.exp (-700 : ℝ) := by
    rw [flUnderflowThreshold, ← Real.exp_log (zpow_pos (by norm_num) _),
      Real.exp_lt_exp, Real.log_zpow]
    have := Real.log_two_gt_d9
    push_cast
    nlinarith
  exact lt_of_lt_of_le h1 (Real.exp_le_exp.mpr hx)

theorem zpow_neg1011_lt_exp_neg700 :
    (2:ℝ) ^ (-1011 : ℤ) < Real.exp (-700 : ℝ) := by
  rw [← Real.exp_log (zpow_pos (by norm_num) _), Real.exp_lt_exp, Real.log_zpow]
  have := Real.log_two_gt_d9
  push_cast
  nlinarith

theorem threshold_lt_inv_len {n : Nat} (hn : 0 < n) (hle : n ≤ 2 ^ 64) :
    flUnderflowThreshold < ((n : ℝ))⁻¹ := by
  have h1 : ((n : ℝ)) ≤ (2:ℝ) ^ (64 : ℤ) := by exact_mod_cast hle
  have hnpos : (0:ℝ) < n := by exact_mod_cast hn
  have h2 : ((2:ℝ) ^ (64 : ℤ))⁻¹ ≤ ((n : ℝ))⁻¹ := inv_anti₀ hnpos h1
  rw [flUnderflowThreshold]
  calc (2:ℝ) ^ (-1075 : ℤ) < (2:ℝ) ^ (-64 : ℤ) :=
      zpow_lt_zpow_right₀ (by norm_num) (by norm_num)
    _ = ((2:ℝ) ^ (64 : ℤ))⁻¹ := by rw [← zpow_neg]
    _ ≤ ((n : ℝ))⁻¹ := h2

theorem npMax_ge : ∀ {l : List Nat} {x : Nat}, x ∈ l → x ≤ npMax l := by
  intro l
  induction l with
  | nil =>
    intro x hx
    simp at hx
  | cons a t ih =>
    intro x hx
    show x ≤ Nat.max a (npMax t)
    rcases List.mem_cons.mp hx with h | h
    · rw [h]
      exact Nat.le_max_left _ _
    · exact le_trans (ih h) (Nat.le_max_right _ _)

/-- Target with 746 neurons in one layer, driving the float64 exponential of
the softmax into underflow for a zero-fitness individual. -/
def bigTarget : LogicGateNetwork := ⟨[⟨List.replicate 746 ⟨Op.AND, [0, 1]⟩⟩]⟩

/-- Individual agreeing with bigTarget on no gene at all. -/
def bigBad : LogicGateNetwork := ⟨[⟨List.replicate 746 ⟨Op.OR, [0, 1]⟩⟩]⟩

/-- GeneticAlgorithm state over bigTarget whose population holds the target
itself (fitness 746) and bigBad (fitness 0, hence deficit 746). -/
def bigGA : GeneticAlgorithm :=
  { target_structure := netStructure bigTarget
    input_data := []
    input_size := 2
    layer_sizes := [746]
    population_size := 2
    mutation_rate := 0
    crossover_rate := 0
    population := [bigTarget, bigBad] }

/-- C8 counterexample: on the 746-neuron configuration bigGA, the minimal
fitness individual's float64 selection weight exp(0 - 746) underflows to
exactly 0, and so does its selection probability: neither every weight nor
every probability is strictly positive on this concrete nonempty
population. -/
theorem countP_zip_replicate_zero (n : Nat) (g1 g2 : Gene)
    (h : ¬(g1.1 = g2.1 ∧ g1.2 = g2.2)) :
    (((List.replicate n g1).zip (List.replicate n g2)).countP
      fun gp => decide (gp.1.1 = gp.2.1 ∧ gp.1.2 = gp.2.2)) = 0 := by
  induction n with
  | zero => rfl
  | succ n ih =>
    rw [List.replicate_succ, List.replicate_succ, List.zip_cons_cons,
      List.countP_cons, ih]
    simp [h]

theorem select_softmax_zero_probability :
    bigGA.population ≠ [] ∧
    ¬ (∀ w ∈ bigGA.selectWeights, 0 < w) ∧
    ¬ (∀ p ∈ bigGA.selectProbs, 0 < p) := by
  have hstr1 : netStructure bigTarget =
      [List.replicate 746 ((Op.AND : Op), ([0, 1] : List Nat))] := by
    show [(List.replicate 746 (⟨Op.AND, [0, 1]⟩ : LogicGateNeuron)).map
      (fun neuron => (neuron.operator, neuron.inputs))] = _
    rw [List.map_replicate]
  have hstr2 : netStructure bigBad =
      [List.replicate 746 ((Op.OR : Op), ([0, 1] : List Nat))] := by
    show [(List.replicate 746 (⟨Op.OR, [0, 1]⟩ : LogicGateNeuron)).map
      (fun neuron => (neuron.operator, neuron.inputs))] = _
    rw [List.map_replicate]
  have hf1 : bigGA.fitness bigTarget = 746 := by
    show fitnessScore (netStructure bigTarget) (netStructure bigTarget) = 746
    rw [(fitnessScore_eq_max_iff _ _ rfl).mpr rfl, hstr1]
    simp only [maxFitness, List.map_cons, List.map_nil, List.sum_cons,
      List.sum_nil, List.length_replicate]
    omega
  have hf2 : bigGA.fitness bigBad = 0 := by
    show fitnessScore (netStructure bigTarget) (netStructure bigBad) = 0
    rw [hstr1, hstr2]
    simp only [fitnessScore, List.zip_cons_cons, List.zip_nil_right,
      List.map_cons, List.map_nil, List.sum_cons, List.sum_nil]
    rw [countP_zip_replicate_zero 746 _ _ (by simp)]
    omega
  have hnpmax : npMax (bigGA.population.map bigGA.fitness) = 746 := by
    have hmap : bigGA.population.map bigGA.fitness = [746, 0] := by
      show [bigGA.fitness bigTarget, bigGA.fitness bigBad] = [746, 0]
      rw [hf1, hf2]
    rw [hmap]
    rfl
  have hzero : flPos (Real.exp (((bigGA.fitness bigBad : ℤ) -
      (npMax (bigGA.population.map bigGA.fitness) : ℤ) : ℤ) : ℝ)) = 0 := by
    apply flPos_eq_zero
    apply exp_le_threshold
    rw [hf2, hnpmax]
    push_cast
    norm_num
  have hW0 : (0 : ℝ) ∈ bigGA.selectWeights := by
    rw [GeneticAlgorithm.selectWeights]
    refine List.mem_map.mpr ⟨bigBad, ?_, hzero⟩
    show bigBad ∈ [bigTarget, bigBad]
    simp
  have hP0 : (0 : ℝ) ∈ bigGA.selectProbs := by
    rw [GeneticAlgorithm.selectProbs]
    refine List.mem_map.mpr ⟨0, hW0, ?_⟩
    rw [zero_div]
    exact flPos_eq_zero (le_of_lt flUnderflowThreshold_pos)
  refine ⟨by decide, ?_, ?_⟩
  · intro hall
    exact absurd (hall 0 hW0) (lt_irrefl 0)
  · intro hall
    exact absurd (hall 0 hP0) (lt_irrefl 0)

/-- C8 amended: on a nonempty population in which every individual's fitness
lies within 700 of the population maximum and which holds at most 2 to the 64
individuals, every float64 selection weight exp(fitness - max) escapes
underflow and is strictly positive, the normalizing sum is nonzero, every
individual — minimal fitness included — receives strictly positive selection
probability, and with all fitness values equal the distribution is exactly
uniform.  Without the deficit bound this fails: a deficit of 746 underflows
to an exactly zero weight. -/
theorem select_softmax_positive_bounded (ga : GeneticAlgorithm)
    (hne : ga.population ≠ [])
    (hdef : ∀ net ∈ ga.population,
      (npMax (ga.population.map ga.fitness) : ℤ) -
        (ga.fitness net : ℤ) ≤ 700)
    (hsize : ga.population.length ≤ 2 ^ 64) :
    (∀ w ∈ ga.selectWeights, 0 < w) ∧
    0 < ga.selectWeights.sum ∧
    (∀ p ∈ ga.selectProbs, 0 < p) ∧
    ((∀ x ∈ ga.population, ∀ y ∈ ga.population,
        ga.fitness x = ga.fitness y) →
      ga.selectProbs =
        List.replicate ga.population.length ((ga.population.length : ℝ)⁻¹)) := by
  have hexp : ∀ net ∈ ga.population, flUnderflowThreshold <
      Real.exp (((ga.fitness net : ℤ) -
        (npMax (ga.population.map ga.fitness) : ℤ) : ℤ) : ℝ) := by
    intro net hnet
    apply threshold_lt_exp
    have h1 := hdef net hnet
    have h2 : (-700 : ℤ) ≤ (ga.fitness net : ℤ) -
        (npMax (ga.population.map ga.fitness) : ℤ) := by omega
    exact_mod_cast h2
  have hw : ∀ w ∈ ga.selectWeights, 0 < w := by
    intro w hwm
    rw [GeneticAlgorithm.selectWeights] at hwm
    obtain ⟨net, hnet, rfl⟩ := List.mem_map.mp hwm
    exact flPos_pos (hexp net hnet)
  have hwle : ∀ w ∈ ga.selectWeights, w ≤ 1 := by
    intro w hwm
    rw [GeneticAlgorithm.selectWeights] at hwm
    obtain ⟨net, hnet, rfl⟩ := List.mem_map.mp hwm
    have hfle : ga.fitness net ≤ npMax (ga.population.map ga.fitness) :=
      npMax_ge (List.mem_map_of_mem ga.fitness hnet)
    have harg : (((ga.fitness net : ℤ) -
        (npMax (ga.population.map ga.fitness) : ℤ) : ℤ) : ℝ) ≤ 0 := by
      have h0 : (ga.fitness net : ℤ) -
          (npMax (ga.population.map ga.fitness) : ℤ) ≤ 0 := by omega
      exact_mod_cast h0
    have hle1 := Real.exp_le_exp.mpr harg
    rw [Real.exp_zero] at hle1
    exact le_trans (flPos_le (le_of_lt (Real.exp_pos _))) hle1
  have hwne : ga.selectWeights ≠ [] := by
    rw [GeneticAlgorithm.selectWeights]
    simpa using hne
  have hsum : 0 < ga.selectWeights.sum := List.sum_pos _ hw hwne
  have hlenw : ga.selectWeights.length = ga.population.length := by
    rw [GeneticAlgorithm.selectWeights, List.length_map]
  have hsumle : ga.selectWeights.sum ≤ (ga.population.length : ℝ) := by
    have h1 := List.sum_le_card_nsmul ga.selectWeights 1 hwle
    rw [nsmul_eq_mul, mul_one, hlenw] at h1
    exact h1
  have hsize' : (ga.population.length : ℝ) ≤ (2:ℝ) ^ (64 : ℤ) := by
    exact_mod_cast hsize
  refine ⟨hw, hsum, ?_, ?_⟩
  · intro p hp
    rw [GeneticAlgorithm.selectProbs] at hp
    obtain ⟨w, hwm, rfl⟩ := List.mem_map.mp hp
    apply flPos_pos
    rw [lt_div_iff₀ hsum]
    have hwm' := hwm
    rw [GeneticAlgorithm.selectWeights] at hwm'
    obtain ⟨net, hnet, hweq⟩ := List.mem_map.mp hwm'
    have hwge : Real.exp (-700 : ℝ) ≤ w := by
      rw [← hweq, flPos_eq_self (hexp net hnet)]
      apply Real.exp_le_exp.mpr
      have h1 := hdef net hnet
      have h2 : (-700 : ℤ) ≤ (ga.fitness net : ℤ) -
          (npMax (ga.population.map ga.fitness) : ℤ) := by omega
      exact_mod_cast h2
    have hA : flUnderflowThreshold * ga.selectWeights.sum ≤
        flUnderflowThreshold * ((2:ℝ) ^ (64 : ℤ)) :=
      mul_le_mul_of_nonneg_left (le_trans hsumle hsize')
        (le_of_lt flUnderflowThreshold_pos)
    have hB : flUnderflowThreshold * ((2:ℝ) ^ (64 : ℤ)) =
        (2:ℝ) ^ (-1011 : ℤ) := by
      rw [flUnderflowThreshold, ← zpow_add₀ (by norm_num : (2:ℝ) ≠ 0)]
      norm_num
    rw [hB] at hA
    exact lt_of_le_of_lt hA (lt_of_lt_of_le zpow_neg1011_lt_exp_neg700 hwge)
  · intro hall
    obtain ⟨n0, hn0⟩ := List.exists_mem_of_ne_nil _ hne
    have hallc : ∀ x ∈ ga.population, ga.fitness x = ga.fitness n0 :=
      fun x hx => hall x hx n0 hn0
    have hmax : npMax (ga.population.map ga.fitness) = ga.fitness n0 :=
      npMax_all_eq (by simpa using hne)
        (by
          intro x hx
          obtain ⟨y, hy, rfl⟩ := List.mem_map.mp hx
          exact hallc y hy)
    have hwconst : ga.selectWeights =
        List.replicate ga.population.length 1 := by
      rw [GeneticAlgorithm.selectWeights, hmax]
      calc ga.population.map
            (fun network => flPos (Real.exp (((ga.fitness network : ℤ) -
              (ga.fitness n0 : ℤ) : ℤ) : ℝ)))
          = ga.population.map (fun _ => (1 : ℝ)) := by
            apply List.map_congr_left
            intro x hx
            rw [hallc x hx, sub_self, Int.cast_zero, Real.exp_zero]
            exact flPos_eq_self threshold_lt_one
        _ = List.replicate ga.population.length 1 := map_const_replicate _ _
    have hsumconst : ga.selectWeights.sum = (ga.population.length : ℝ) := by
      rw [hwconst, List.sum_replicate, nsmul_eq_mul, mul_one]
    have hlenpos : 0 < ga.population.length := List.length_pos.mpr hne
    rw [GeneticAlgorithm.selectProbs, hsumconst, hwconst, List.map_replicate]
    congr 1
    rw [one_div]
    exact flPos_eq_self (threshold_lt_inv_len hlenpos hsize)

/-- Witness for select_softmax_positive_bounded on exGA: a single individual
at deficit 0 in a size-1 population. -/
theorem select_softmax_positive_bounded_witness :
    exGA.population ≠ [] ∧
    (∀ net ∈ exGA.population,
      (npMax (exGA.population.map exGA.fitness) : ℤ) -
        (exGA.fitness net : ℤ) ≤ 700) ∧
    exGA.population.length ≤ 2 ^ 64 ∧
    0 < exGA.selectWeights.sum :=
  ⟨by decide, by decide, by decide,
    (select_softmax_positive_bounded exGA (by decide) (by decide)
      (by decide)).2.1⟩

/-! Length preservation of layer mutation, and getD facts about set. -/

theorem mutateNeuronList_length {num_inputs : Nat} :
    ∀ {ns : List LogicGateNeuron} {opChoice : Nat → Nat}
      {rand : Nat → Nat → Nat} {ms : List LogicGateNeuron},
      mutateNeuronList num_inputs opChoice rand ns = some ms →
      ms.length = ns.length := by
  intro ns
  induction ns with
  | nil =>
    intro opChoice rand ms h
    simp only [mutateNeuronList, Option.some.injEq] at h
    simp [← h]
  | cons n ns ih =>
    intro opChoice rand ms h
    rcases hm : n.mutate num_inputs (opChoice 0) (rand 0) with _ | m
    · rw [mutateNeuronList, hm] at h
      exact absurd h (by simp)
    · rcases hrec : mutateNeuronList num_inputs (fun j => opChoice (j + 1))
          (fun j => rand (j + 1)) ns with _ | ms'
      · rw [mutateNeuronList, hm, hrec] at h
        exact absurd h (by simp)
      · rw [mutateNeuronList, hm, hrec] at h
        have := Option.some.inj h
        rw [← this]
        simp [ih hrec]

theorem layer_mutate_length {l l' : LogicGateLayer} {num_inputs : Nat}
    {opChoice : Nat → Nat} {rand : Nat → Nat → Nat}
    (h : l.mutate num_inputs opChoice rand = some l') :
    l'.neurons.length = l.neurons.length := by
  rw [LogicGateLayer.mutate] at h
  rcases hm : mutateNeuronList num_inputs opChoice rand l.neurons with _ | ms
  · rw [hm] at h
    exact absurd h (by simp)
  · rw [hm] at h
    have := Option.some.inj h
    rw [← this]
    exact mutateNeuronList_length hm

theorem getD_set_ne {α : Type} (l : List α) (i j : Nat) (a d : α) (h : i ≠ j) :
    (l.set i a).getD j d = l.getD j d := by
  rw [List.getD_eq_getElem?_getD, List.getD_eq_getElem?_getD,
    List.getElem?_set_ne h]

theorem getD_set_self {α : Type} (l : List α) (i : Nat) (a d : α)
    (h : i < l.length) : (l.set i a).getD i d = a := by
  rw [List.getD_eq_getElem?_getD, List.getElem?_set_self h]
  rfl

/-- C4 core: the in-place mutate loop of the source equals the loop whose
per-layer input counts are all read off the original network, because layer
mutation preserves neuron counts and the layer-0 fan-in is read before layer 0
is mutated. -/
theorem mutateGo_eq_byCounts (net : LogicGateNetwork) (randOp : Nat → Nat → Nat)
    (rand : Nat → Nat → Nat → Nat) :
    ∀ (steps i : Nat) (layers : List LogicGateLayer),
      layers.length = net.layers.length →
      (∀ j, (layers.getD j ⟨[]⟩).neurons.length =
        (net.layers.getD j ⟨[]⟩).neurons.length) →
      (∀ j, i ≤ j → layers.getD j ⟨[]⟩ = net.layers.getD j ⟨[]⟩) →
      mutateGo randOp rand steps i layers =
        mutateByCountsGo net randOp rand steps i layers := by
  intro steps
  induction steps with
  | zero =>
    intro i layers _ _ _
    rfl
  | succ steps ih =>
    intro i layers hlen hcnt hsame
    rw [mutateGo, mutateByCountsGo]
    have hnum : (if i > 0 then some ((layers.getD (i - 1) ⟨[]⟩).neurons.length)
        else ((layers.getD 0 ⟨[]⟩).neurons.head?).map
          fun n0 => n0.inputs.length) = derivedNumInputs net i := by
      rw [derivedNumInputs]
      by_cases hi : i > 0
      · rw [if_pos hi, if_pos hi, hcnt (i - 1)]
      · rw [if_neg hi, if_neg hi, hsame 0 (by omega)]
    rw [hnum, hsame i (le_refl i)]
    cases hd : derivedNumInputs net i with
    | none => rfl
    | some c =>
      show (match (net.layers.getD i ⟨[]⟩).mutate c (randOp i) (rand i) with
          | none => none
          | some newLayer =>
            mutateGo randOp rand steps (i + 1) (layers.set i newLayer)) =
        match (net.layers.getD i ⟨[]⟩).mutate c (randOp i) (rand i) with
          | none => none
          | some newLayer =>
            mutateByCountsGo net randOp rand steps (i + 1) (layers.set i newLayer)
      cases hm : (net.layers.getD i ⟨[]⟩).mutate c (randOp i) (rand i) with
      | none => rfl
      | some newLayer =>
        refine ih (i + 1) (layers.set i newLayer) (by simp [hlen]) ?_ ?_
        · intro j
          by_cases hij : i = j
          · subst hij
            by_cases hlt : i < layers.length
            · rw [getD_set_self _ _ _ _ hlt, layer_mutate_length hm]
            · rw [List.set_eq_of_length_le (by omega)]
              exact hcnt i
          · rw [getD_set_ne _ _ _ _ _ hij]
            exact hcnt j
        · intro j hj
          rw [getD_set_ne _ _ _ _ _ (by omega)]
          exact hsame j (by omega)

/-- C4: Network.mutate passes to layer 0 a num_inputs equal to the current
input-list length of layer 0's first neuron and to every layer i > 0 a
num_inputs equal to layer i-1's neuron count: the in-place loop coincides with
mutateByCounts driven by derivedNumInputs of the original network, and
derivedNumInputs is exactly that per-layer count (in particular a first neuron
previously mutated to a fan-in-1 NOT gate makes the derived count 1). -/
theorem network_mutate_uses_derived_counts (net : LogicGateNetwork)
    (randOp : Nat → Nat → Nat) (rand : Nat → Nat → Nat → Nat) :
    net.mutate randOp rand = mutateByCounts net randOp rand ∧
    (∀ i, 0 < i → derivedNumInputs net i =
      some ((net.layers.getD (i - 1) ⟨[]⟩).neurons.length)) ∧
    (∀ n0, (net.layers.getD 0 ⟨[]⟩).neurons.head? = some n0 →
      derivedNumInputs net 0 = some n0.inputs.length) := by
  refine ⟨?_, ?_, ?_⟩
  · rw [LogicGateNetwork.mutate, mutateByCounts,
      mutateGo_eq_byCounts net randOp rand net.layers.length 0 net.layers rfl
        (fun _ => rfl) (fun _ _ => rfl)]
  · intro i hi
    rw [derivedNumInputs, if_pos hi]
  · intro n0 h0
    rw [derivedNumInputs, if_neg (by omega), h0]
    rfl

/-- Example network whose layer-0 first neuron is a fan-in-1 NOT gate. -/
def exNotFirst : LogicGateNetwork :=
  ⟨[⟨[⟨Op.NOT, [0]⟩, ⟨Op.AND, [0, 1]⟩]⟩, ⟨[⟨Op.OR, [0, 1]⟩]⟩]⟩

/-- Witness for network_mutate_uses_derived_counts on exNotFirst: the loop
equality, the layer-1 count, and the derived layer-0 count of 1 coming from
the NOT first neuron. -/
theorem network_mutate_uses_derived_counts_witness :
    exNotFirst.mutate (fun _ _ => 0) (fun _ _ _ => 0) =
      mutateByCounts exNotFirst (fun _ _ => 0) (fun _ _ _ => 0) ∧
    0 < 1 ∧
    derivedNumInputs exNotFirst 1 =
      some ((exNotFirst.layers.getD 0 ⟨[]⟩).neurons.length) ∧
    (exNotFirst.layers.getD 0 ⟨[]⟩).neurons.head? = some ⟨Op.NOT, [0]⟩ ∧
    derivedNumInputs exNotFirst 0 =
      some (LogicGateNeuron.mk Op.NOT [0]).inputs.length :=
  ⟨(network_mutate_uses_derived_counts exNotFirst _ _).1, by decide,
    (network_mutate_uses_derived_counts exNotFirst (fun _ _ => 0)
      (fun _ _ _ => 0)).2.1 1 (by decide), rfl,
    (network_mutate_uses_derived_counts exNotFirst (fun _ _ => 0)
      (fun _ _ _ => 0)).2.2 ⟨Op.NOT, [0]⟩ rfl⟩

/-! The GA mutation step changes at most one gene. -/

theorem geneAt_set_frame (network : LogicGateNetwork) (L N : Nat)
    (m : LogicGateNeuron) (hL : L < network.layers.length) :
    ∀ i j, ¬(i = L ∧ j = N) →
      geneAt ⟨network.layers.set L
        ⟨(network.layers.getD L ⟨[]⟩).neurons.set N m⟩⟩ i j =
      geneAt network i j := by
  intro i j hij
  rw [geneAt, geneAt]
  by_cases hiL : i = L
  · subst hiL
    have hjN : N ≠ j := fun hj => hij ⟨rfl, hj.symm⟩
    have h1 : (network.layers.set i
        ⟨(network.layers.getD i ⟨[]⟩).neurons.set N m⟩)[i]? =
        some ⟨(network.layers.getD i ⟨[]⟩).neurons.set N m⟩ :=
      List.getElem?_set_self hL
    have h2 : network.layers[i]? = some (network.layers.getD i ⟨[]⟩) := by
      rw [List.getD_eq_getElem?_getD, List.getElem?_eq_getElem hL]
      rfl
    rw [h1, h2]
    simp only [Option.some_bind]
    rw [List.getElem?_set_ne hjN]
  · have h1 : (network.layers.set L
        ⟨(network.layers.getD L ⟨[]⟩).neurons.set N m⟩)[i]? =
        network.layers[i]? :=
      List.getElem?_set_ne (fun hc => hiL hc.symm)
    rw [h1]

/-- Full characterization of one successful GA-level mutation call: either
the network is returned unchanged, or exactly one in-range neuron was
replaced via Neuron.mutate with the layer-appropriate input count, every
other gene untouched. -/
theorem ga_mutate_spec (ga : GeneticAlgorithm)
    (network : LogicGateNetwork) (coin : ℚ) (li ni opc : Nat)
    (rand : Nat → Nat) (net' : LogicGateNetwork)
    (h : ga.mutate network coin li ni opc rand = some net') :
    net' = network ∨
    ∃ L N m,
      L < network.layers.length ∧
      N < (network.layers.getD L ⟨[]⟩).neurons.length ∧
      ((network.layers.getD L ⟨[]⟩).neurons.getD N ⟨Op.AND, []⟩).mutate
        (if L > 0 then (network.layers.getD (L - 1) ⟨[]⟩).neurons.length
          else ga.input_size) opc rand = some m ∧
      net' = ⟨network.layers.set L
        ⟨(network.layers.getD L ⟨[]⟩).neurons.set N m⟩⟩ ∧
      (∀ i j, ¬(i = L ∧ j = N) → geneAt net' i j = geneAt network i j) := by
  rw [GeneticAlgorithm.mutate] at h
  by_cases hcoin : coin < ga.mutation_rate
  · rw [if_pos hcoin] at h
    by_cases hL0 : network.layers.length = 0
    · rw [dif_pos hL0] at h
      exact absurd h (by simp)
    · rw [dif_neg hL0] at h
      simp only [] at h
      by_cases hN0 : (network.layers.getD (li % network.layers.length)
          ⟨[]⟩).neurons.length = 0
      · rw [dif_pos hN0] at h
        exact absurd h (by simp)
      · rw [dif_neg hN0] at h
        rcases hm : ((network.layers.getD (li % network.layers.length)
            ⟨[]⟩).neurons.getD
              (ni % (network.layers.getD (li % network.layers.length)
                ⟨[]⟩).neurons.length) ⟨Op.AND, []⟩).mutate
            (if li % network.layers.length > 0 then
              (network.layers.getD (li % network.layers.length - 1)
                ⟨[]⟩).neurons.length
             else ga.input_size) opc rand with _ | m
        · rw [hm] at h
          exact absurd h (by simp)
        · rw [hm] at h
          have hnet := Option.some.inj h
          refine Or.inr ⟨li % network.layers.length,
            ni % (network.layers.getD (li % network.layers.length)
              ⟨[]⟩).neurons.length, m,
            Nat.mod_lt _ (Nat.pos_of_ne_zero hL0),
            Nat.mod_lt _ (Nat.pos_of_ne_zero hN0), hm, hnet.symm, ?_⟩
          rw [← hnet]
          exact geneAt_set_frame network _ _ m
            (Nat.mod_lt _ (Nat.pos_of_ne_zero hL0))
  · rw [if_neg hcoin] at h
    exact Or.inl (Option.some.inj h).symm

/-- C9: one call of the GA-level mutation either leaves the network unchanged
(coin at or above the mutation rate) or replaces exactly one neuron: the
replaced position is in range, the new neuron results from Neuron.mutate with
num_inputs equal to the previous layer's neuron count — or the configured
input_size for layer 0 — and the gene of every other position is untouched. -/
theorem ga_mutate_changes_at_most_one_gene (ga : GeneticAlgorithm)
    (network : LogicGateNetwork) (coin : ℚ) (li ni opc : Nat)
    (rand : Nat → Nat) (net' : LogicGateNetwork)
    (h : ga.mutate network coin li ni opc rand = some net') :
    net' = network ∨
    ∃ L N m,
      L < network.layers.length ∧
      N < (network.layers.getD L ⟨[]⟩).neurons.length ∧
      ((network.layers.getD L ⟨[]⟩).neurons.getD N ⟨Op.AND, []⟩).mutate
        (if L > 0 then (network.layers.getD (L - 1) ⟨[]⟩).neurons.length
          else ga.input_size) opc rand = some m ∧
      net' = ⟨network.layers.set L
        ⟨(network.layers.getD L ⟨[]⟩).neurons.set N m⟩⟩ ∧
      (∀ i j, ¬(i = L ∧ j = N) → geneAt net' i j = geneAt network i j) :=
  ga_mutate_spec ga network coin li ni opc rand net' h

/-- Variant of exGA with rates that are plain integer rationals, so concrete
runs reduce inside the kernel. -/
def exGA9 : GeneticAlgorithm :=
  { exGA with mutation_rate := 1, crossover_rate := 0 }

/-- Witness for ga_mutate_changes_at_most_one_gene: a coin below the rate on
exGA9 mutates neuron (0, 0) of exTarget back to an identical gene. -/
theorem ga_mutate_changes_at_most_one_gene_witness :
    exGA9.mutate exTarget 0 0 0 0 (fun _ => 0) = some exTarget ∧
    (exTarget = exTarget ∨
      ∃ L N m,
        L < exTarget.layers.length ∧
        N < (exTarget.layers.getD L ⟨[]⟩).neurons.length ∧
        ((exTarget.layers.getD L ⟨[]⟩).neurons.getD N ⟨Op.AND, []⟩).mutate
          (if L > 0 then (exTarget.layers.getD (L - 1) ⟨[]⟩).neurons.length
            else exGA9.input_size) 0 (fun _ => 0) = some m ∧
        exTarget = ⟨exTarget.layers.set L
          ⟨(exTarget.layers.getD L ⟨[]⟩).neurons.set N m⟩⟩ ∧
        (∀ i j, ¬(i = L ∧ j = N) →
          geneAt exTarget i j = geneAt exTarget i j)) :=
  ⟨by decide, ga_mutate_changes_at_most_one_gene exGA9 exTarget 0 0 0 0
    (fun _ => 0) exTarget (by decide)⟩

/-! Support for the generation loop: shapes are preserved from the initial
population through selection, crossover and mutation. -/

theorem mapOpt_length {α β : Type} {f : α → Option β} :
    ∀ {l : List α} {b : List β}, mapOpt f l = some b → b.length = l.length := by
  intro l
  induction l with
  | nil =>
    intro b h
    simp only [mapOpt, Option.some.injEq] at h
    simp [← h]
  | cons a as ih =>
    intro b h
    rcases ha : f a with _ | x
    · rw [mapOpt, ha] at h
      exact absurd h (by simp)
    · rcases hrec : mapOpt f as with _ | xs
      · rw [mapOpt, ha, hrec] at h
        exact absurd h (by simp)
      · rw [mapOpt, ha, hrec] at h
        have := Option.some.inj h
        rw [← this]
        simp [ih hrec]

theorem mapOpt_mem {α β : Type} {f : α → Option β} :
    ∀ {l : List α} {b : List β}, mapOpt f l = some b →
      ∀ x ∈ b, ∃ a ∈ l, f a = some x := by
  intro l
  induction l with
  | nil =>
    intro b h x hx
    simp only [mapOpt, Option.some.injEq] at h
    rw [← h] at hx
    simp at hx
  | cons a as ih =>
    intro b h x hx
    rcases ha : f a with _ | y
    · rw [mapOpt, ha] at h
      exact absurd h (by simp)
    · rcases hrec : mapOpt f as with _ | ys
      · rw [mapOpt, ha, hrec] at h
        exact absurd h (by simp)
      · rw [mapOpt, ha, hrec] at h
        have hb := Option.some.inj h
        rw [← hb] at hx
        rcases List.mem_cons.mp hx with hx | hx
        · exact ⟨a, by simp, by rw [ha, hx]⟩
        · obtain ⟨a', ha', hfa'⟩ := ih hrec x hx
          exact ⟨a', List.mem_cons_of_mem _ ha', hfa'⟩

theorem layer_init_length {num_neurons num_inputs : Nat}
    {rand : Nat → Nat → Nat} {l : LogicGateLayer}
    (h : LogicGateLayer.init num_neurons num_inputs rand = some l) :
    l.neurons.length = num_neurons := by
  rw [LogicGateLayer.init] at h
  rcases hm : mapOpt (fun j =>
      (sampleNoReplace 2 (rand j) (List.range num_inputs)).map
        fun ins => LogicGateNeuron.mk Op.AND ins)
      (List.range num_neurons) with _ | ns
  · rw [hm] at h
    exact absurd h (by simp)
  · rw [hm] at h
    have := Option.some.inj h
    rw [← this]
    have := mapOpt_length hm
    simpa using this

theorem initLayers_shape {rand : Nat → Nat → Nat → Nat} :
    ∀ {sizes : List Nat} {cur li : Nat} {ls : List LogicGateLayer},
      initLayers rand sizes cur li = some ls →
      (ls.map fun l => l.neurons.length) = sizes := by
  intro sizes
  induction sizes with
  | nil =>
    intro cur li ls h
    simp only [initLayers, Option.some.injEq] at h
    simp [← h]
  | cons size rest ih =>
    intro cur li ls h
    rcases h1 : LogicGateLayer.init size cur (rand li) with _ | layer
    · rw [initLayers, h1] at h
      exact absurd h (by simp)
    · rcases h2 : initLayers rand rest size (li + 1) with _ | tl
      · rw [initLayers, h1, h2] at h
        exact absurd h (by simp)
      · rw [initLayers, h1, h2] at h
        have := Option.some.inj h
        rw [← this]
        simp [layer_init_length h1, ih h2]

theorem network_init_shape {layer_sizes : List Nat} {input_size : Nat}
    {rand : Nat → Nat → Nat → Nat} {net : LogicGateNetwork}
    (h : LogicGateNetwork.init layer_sizes input_size rand = some net) :
    netShape net = layer_sizes := by
  rw [LogicGateNetwork.init] at h
  rcases h1 : initLayers rand layer_sizes input_size 0 with _ | ls
  · rw [h1] at h
    exact absurd h (by simp)
  · rw [h1] at h
    have := Option.some.inj h
    rw [← this]
    exact initLayers_shape h1

theorem select_mem {ga : GeneticAlgorithm} {choice : Nat}
    {p : LogicGateNetwork} (h : ga.select choice = some p) :
    p ∈ ga.population := by
  rw [GeneticAlgorithm.select] at h
  split at h
  · exact absurd h (by simp)
  · have := Option.some.inj h
    rw [← this]
    exact List.get_mem _ _ _

theorem crossNeurons_length (rate : ℚ) :
    ∀ (r : Nat → ℚ) (t1 t2 : List LogicGateNeuron),
      (crossNeurons rate r t1 t2).length = t1.length := by
  intro r t1
  induction t1 generalizing r with
  | nil => intro t2; cases t2 <;> rfl
  | cons n1 t1 ih =>
    intro t2
    cases t2 with
    | nil => rfl
    | cons n2 t2 =>
      rw [crossNeurons]
      simp [ih (fun j => r (j + 1)) t2]

theorem crossLayers_shape (rate : ℚ) :
    ∀ (r : Nat → Nat → ℚ) (l1 l2 : List LogicGateLayer),
      ((crossLayers rate r l1 l2).map fun l => l.neurons.length) =
        l1.map fun l => l.neurons.length := by
  intro r l1
  induction l1 generalizing r with
  | nil => intro l2; cases l2 <;> rfl
  | cons h1 t1 ih =>
    intro l2
    cases l2 with
    | nil => rfl
    | cons h2 t2 =>
      rw [crossLayers]
      simp [crossNeurons_length, ih (fun i => r (i + 1)) t2]

theorem crossover_shape (ga : GeneticAlgorithm) (r : Nat → Nat → ℚ)
    (p1 p2 : LogicGateNetwork) :
    netShape (ga.crossover r p1 p2) = netShape p1 :=
  crossLayers_shape ga.crossover_rate r p1.layers p2.layers

theorem set_getD_self {α : Type} :
    ∀ (l : List α) (i : Nat) (d : α), l.set i (l.getD i d) = l := by
  intro l
  induction l with
  | nil => intro i d; rfl
  | cons a t ih =>
    intro i d
    cases i with
    | zero => rfl
    | succ i =>
      show a :: t.set i (t.getD i d) = a :: t
      rw [ih]

theorem map_getD_length (layers : List LogicGateLayer) (L : Nat) :
    (layers.map fun layer => layer.neurons.length).getD L
      ((⟨[]⟩ : LogicGateLayer).neurons.length) =
    (layers.getD L ⟨[]⟩).neurons.length := by
  induction layers generalizing L with
  | nil => cases L <;> rfl
  | cons a t ih =>
    cases L with
    | zero => rfl
    | succ L => exact ih L

theorem ga_mutate_shape {ga : GeneticAlgorithm} {network : LogicGateNetwork}
    {coin : ℚ} {li ni opc : Nat} {rand : Nat → Nat}
    {net' : LogicGateNetwork}
    (h : ga.mutate network coin li ni opc rand = some net') :
    netShape net' = netShape network := by
  rcases ga_mutate_spec ga network coin li ni opc rand
      net' h with h1 | ⟨L, N, m, hL, hN, hm, hnet, _⟩
  · rw [h1]
  · rw [hnet]
    show ((network.layers.set L
      ⟨(network.layers.getD L ⟨[]⟩).neurons.set N m⟩).map
        fun layer => layer.neurons.length) = netShape network
    rw [List.map_set]
    have hlen : (LogicGateLayer.mk
        ((network.layers.getD L ⟨[]⟩).neurons.set N m)).neurons.length =
        (network.layers.getD L ⟨[]⟩).neurons.length := List.length_set ..
    rw [hlen, netShape, ← map_getD_length network.layers L]
    exact set_getD_self _ _ _

theorem bestBy_aux_mem (ga : GeneticAlgorithm) :
    ∀ (pop : List LogicGateNetwork) (acc : Option LogicGateNetwork)
      (b : LogicGateNetwork),
      pop.foldl (fun acc x =>
        match acc with
        | none => some x
        | some b0 => if ga.fitness x > ga.fitness b0 then some x
          else some b0) acc = some b →
      b ∈ pop ∨ acc = some b := by
  intro pop
  induction pop with
  | nil =>
    intro acc b h
    exact Or.inr h
  | cons x xs ih =>
    intro acc b h
    rw [List.foldl_cons] at h
    rcases ih _ b h with hmem | hacc
    · exact Or.inl (List.mem_cons_of_mem _ hmem)
    · cases acc with
      | none =>
        have hacc' : some x = some b := hacc
        have : x = b := Option.some.inj hacc'
        exact Or.inl (this ▸ List.mem_cons_self x xs)
      | some b0 =>
        have hacc' : (if ga.fitness x > ga.fitness b0 then some x
            else some b0) = some b := hacc
        by_cases hf : ga.fitness x > ga.fitness b0
        · rw [if_pos hf] at hacc'
          have : x = b := Option.some.inj hacc'
          exact Or.inl (this ▸ List.mem_cons_self x xs)
        · rw [if_neg hf] at hacc'
          exact Or.inr hacc'

theorem bestBy_mem {ga : GeneticAlgorithm} {pop : List LogicGateNetwork}
    {b : LogicGateNetwork} (h : bestBy ga pop = some b) : b ∈ pop := by
  rcases bestBy_aux_mem ga pop none b h with hmem | hacc
  · exact hmem
  · exact absurd hacc (by simp)

theorem netStructure_map_length (net : LogicGateNetwork) :
    (netStructure net).map List.length = netShape net := by
  simp [netStructure, netShape, List.map_map, Function.comp_def]

theorem buildChild_shape {ga : GeneticAlgorithm} {o : Oracle} {g k : Nat}
    {target : LogicGateNetwork} {c : LogicGateNetwork}
    (hshape : ∀ p ∈ ga.population, netShape p = netShape target)
    (h : ga.buildChild o g k = some c) : netShape c = netShape target := by
  rw [GeneticAlgorithm.buildChild] at h
  rcases h1 : ga.select (o.sel1 g k) with _ | p1
  · rw [h1] at h
    exact absurd h (by simp)
  · rw [h1] at h
    rcases h2 : ga.select (o.sel2 g k) with _ | p2
    · rw [h2] at h
      exact absurd h (by simp)
    · rw [h2] at h
      have hmut := ga_mutate_shape h
      rw [hmut, crossover_shape]
      exact hshape p1 (select_mem h1)

/-- C1 core: along the generation loop, if every member of the current
population has the target's shape, then any returned individual has the
target's fingerprint: the loop only returns on fitness equal to maxFitness,
and under the shared shape that value forces gene-for-gene equality. -/
theorem GA_loop_exact (target : LogicGateNetwork) (o : Oracle) :
    ∀ (fuel g : Nat) (ga : GeneticAlgorithm) (found : LogicGateNetwork),
      ga.target_structure = netStructure target →
      (∀ p ∈ ga.population, netShape p = netShape target) →
      GeneticAlgorithm.GA o fuel g ga = some found →
      netStructure found = netStructure target := by
  intro fuel
  induction fuel with
  | zero =>
    intro g ga found _ _ h
    exact absurd h (by rw [GeneticAlgorithm.GA]; simp)
  | succ fuel ih =>
    intro g ga found htgt hshape h
    rw [GeneticAlgorithm.GA] at h
    split at h
    · exact absurd h (by simp)
    · rename_i new_population hpop
      split at h
      · exact absurd h (by simp)
      · rename_i best hbest
        have hshape' : ∀ p ∈ new_population, netShape p = netShape target := by
          intro p hp
          rw [GeneticAlgorithm.newPopulation] at hpop
          obtain ⟨k, _, hk⟩ := mapOpt_mem hpop p hp
          exact buildChild_shape hshape hk
        split at h
        · rename_i hfit
          have hfound : best = found := Option.some.inj h
          subst hfound
          have hbmem : best ∈ new_population := bestBy_mem hbest
          have hbshape := hshape' best hbmem
          have hfit' : fitnessScore ga.target_structure (netStructure best) =
              maxFitness ga.target_structure := hfit
          rw [htgt] at hfit'
          have hml : (netStructure target).map List.length =
              (netStructure best).map List.length := by
            rw [netStructure_map_length, netStructure_map_length, hbshape]
          exact ((fitnessScore_eq_max_iff _ _ hml).mp hfit').symm
        · exact ih (g + 1) { ga with population := new_population } found htgt
            hshape' h

/-- C1: for a GeneticAlgorithm constructed with layer_sizes equal to the
target's actual per-layer neuron counts, whenever the generation loop returns
an individual, that individual's structural fingerprint is exactly the
target's: the loop terminates only on maximum fitness, and under the shared
topology that fitness is attained only by an exact fingerprint match. -/
theorem GA_returns_exact_match (target_network : LogicGateNetwork)
    (input_data : List (List Nat)) (input_size : Nat) (layer_sizes : List Nat)
    (population_size : Nat) (mutation_rate crossover_rate : ℚ)
    (initRand : Nat → Nat → Nat → Nat → Nat) (o : Oracle)
    (fuel generation : Nat) (ga : GeneticAlgorithm)
    (found : LogicGateNetwork)
    (hinit : GeneticAlgorithm.init target_network input_data input_size
      layer_sizes population_size mutation_rate crossover_rate initRand =
      some ga)
    (hsizes : layer_sizes = netShape target_network)
    (hrun : GeneticAlgorithm.GA o fuel generation ga = some found) :
    netStructure found = netStructure target_network := by
  rw [GeneticAlgorithm.init] at hinit
  rcases hpop : mapOpt
      (fun k => LogicGateNetwork.init layer_sizes input_size (initRand k))
      (List.range population_size) with _ | pop
  · rw [hpop] at hinit
    exact absurd hinit (by simp)
  · rw [hpop, Option.map_some'] at hinit
    have hga := (Option.some.inj hinit).symm
    subst hga
    refine GA_loop_exact target_network o fuel generation _ found rfl ?_ hrun
    intro p hp
    obtain ⟨k, _, hk⟩ := mapOpt_mem hpop p hp
    rw [network_init_shape hk]
    exact hsizes

/-- Target of the concrete GA run in the witness: one AND neuron. -/
def exTargetC1 : LogicGateNetwork := ⟨[⟨[⟨Op.AND, [0, 1]⟩]⟩]⟩

/-- Oracle of the concrete GA run: all index draws 0, mutation coin 1. -/
def exOracle : Oracle :=
  ⟨fun _ _ => 0, fun _ _ => 0, fun _ _ _ _ => 0, fun _ _ => 1,
    fun _ _ => 0, fun _ _ => 0, fun _ _ => 0, fun _ _ _ => 0⟩

/-- The GeneticAlgorithm state the constructor produces in the witness run. -/
def exGAC1 : GeneticAlgorithm :=
  { target_structure := [[(Op.AND, [0, 1])]]
    input_data := []
    input_size := 2
    layer_sizes := [1]
    population_size := 1
    mutation_rate := 0
    crossover_rate := 0
    population := [⟨[⟨[⟨Op.AND, [0, 1]⟩]⟩]⟩] }

/-- Witness for GA_returns_exact_match: a one-generation concrete run that
returns a network with the target's fingerprint. -/
theorem GA_returns_exact_match_witness :
    GeneticAlgorithm.init exTargetC1 [] 2 [1] 1 0 0 (fun _ _ _ _ => 0) =
      some exGAC1 ∧
    [1] = netShape exTargetC1 ∧
    GeneticAlgorithm.GA exOracle 1 0 exGAC1 = some exTargetC1 ∧
    netStructure exTargetC1 = netStructure exTargetC1 :=
  ⟨by decide, by decide, by decide,
    GA_returns_exact_match exTargetC1 [] 2 [1] 1 0 0 (fun _ _ _ _ => 0)
      exOracle 1 0 exGAC1 exTargetC1 (by decide) (by decide) (by decide)⟩
